import Mathlib

/-!
Verification development for the chaospy distribution / orthogonal-polynomial /
quadrature core.  Each definition is a shallow embedding of a function of the
repository (file and symbol named in its doc comment); machine floats are
modelled as exact rationals `ℚ` where the computation is rational, and as real
numbers `ℝ` where transcendental functions or eigenvalue computations occur.
-/

namespace Chaospy

/-! ### Binomial distribution (`chaospy/distributions/collection/binomial.py`) -/

/-- Point probability `comb(N, k) p^k (1-p)^(N-k)` of the binomial
distribution, as used by `Binomial._pdf` and (through `scipy.special.bdtr`)
by `Binomial._cdf`. -/
def binPmf (size : ℕ) (prob : ℚ) (k : ℕ) : ℚ :=
  (size.choose k : ℚ) * prob ^ k * (1 - prob) ^ (size - k)

/-- Cumulative sum `bdtr(k, size, prob) = ∑_{i ≤ k} comb(size, i) p^i (1-p)^(size-i)`,
the documented semantics of `scipy.special.bdtr` at an integer first argument. -/
def binCdfNat (size : ℕ) (prob : ℚ) (k : ℕ) : ℚ :=
  ∑ i ∈ Finset.range (k + 1), binPmf size prob i

/-- `Binomial._cdf` (binomial.py line 38): `special.bdtr(numpy.floor(x_data),
numpy.floor(size), prob)`.  The size parameter is a natural number here, so
`numpy.floor(size)` is the identity; `numpy.floor(x_data)` is `⌊x⌋`.  (`bdtr`
sums the point masses up to the floored argument; for arguments at or above
`size` the sum saturates because the extra binomial terms vanish.) -/
def binForward (size : ℕ) (prob : ℚ) (x : ℚ) : ℚ :=
  binCdfNat size prob (Int.toNat ⌊x⌋)

/-- `Binomial._ppf` (binomial.py line 41): `numpy.ceil(special.bdtrik(q_data,
numpy.floor(size), prob))`.  `bdtrik` is scipy's continuous inverse of `bdtr`
in its first argument; composing with `numpy.ceil` yields the generalized
inverse of the discrete CDF: the least integer `k ∈ {0, …, size}` with
`bdtr(k, size, prob) ≥ q` (realised below as a right fold that keeps the
leftmost satisfying index; the fallback value `size` is never reached for
`q ≤ 1`). -/
def binPpf (size : ℕ) (prob : ℚ) (q : ℚ) : ℕ :=
  (List.range (size + 1)).foldr
    (fun k acc => if q ≤ binCdfNat size prob k then k else acc) size

/-- The round trip `fwd (inv q)` of the Binomial distribution, exactly as the
doctest of binomial.py lines 22-23 composes `distribution.fwd` with
`distribution.inv`. -/
def binRoundTrip (size : ℕ) (prob : ℚ) (q : ℚ) : ℚ :=
  binForward size prob ((binPpf size prob q : ℕ) : ℚ)

/-! ### Arcsin transform (`chaospy/distributions/operators/arcsin.py`) -/

/-- `Arcsin._cdf` (arcsin.py lines 43-44): `evaluate_forward(dist, numpy.sin(x))`;
the wrapped distribution's forward CDF is abstracted as `F`. -/
noncomputable def Arcsin_cdf (F : ℝ → ℝ) (x : ℝ) : ℝ := F (Real.sin x)

/-- `Arcsin._ppf` (arcsin.py lines 46-47):
`numpy.arcsin(evaluate_inverse(dist, q))`; the wrapped distribution's inverse
CDF is abstracted as `Finv`. -/
noncomputable def Arcsin_ppf (Finv : ℝ → ℝ) (q : ℝ) : ℝ := Real.arcsin (Finv q)

/-! ### Gram-Schmidt orthogonalization (`chaospy/orthogonal/gram_schmidt.py`) -/

/-- Abstract interface to the external polynomial algebra (`numpoly`) and to
the expectation operator `chaospy.descriptives.E` consumed by `orth_gs`.  The
polynomial representation itself is external to the repository, so it is kept
opaque: `mul`, `sub` and `scale` are polynomial product, difference and
scalar multiple, `divScalar p c` is `p / c`, `divSqrt p c` is
`p / numpy.sqrt(c)`, and `E p` is the expectation of `p` under the weighting
distribution (scalars are modelled as exact rationals). -/
structure PolyOps (P : Type) where
  mul : P → P → P
  sub : P → P → P
  scale : P → ℚ → P
  divScalar : P → ℚ → P
  divSqrt : P → ℚ → P
  E : P → ℚ

/-- Inner loop of the `normed=True` path of `orth_gs` (gram_schmidt.py lines
61-64): `basis[idx] = basis[idx] - polynomials[idy] * E(basis[idx] *
polynomials[idy])`, folded over the accepted polynomials in order, with
`basis[idx]` updated in place between projections. -/
def orthNormed {P : Type} (ops : PolyOps P) (polys : List P) (b : P) : P :=
  polys.foldl (fun acc p => ops.sub acc (ops.scale p (ops.E (ops.mul acc p)))) b

/-- Inner loop of the `normed=False` path of `orth_gs` (gram_schmidt.py lines
81-84): `basis[idx] = basis[idx] - polynomials[idy] * E(basis[idx] *
polynomials[idy]) / norms[idy]`.  Besides the updated polynomial, the list of
scalars used as divisors is returned (in projection order) so that the
division-safety property can be stated. -/
def orthUnnormed {P : Type} (ops : PolyOps P) :
    List (P × ℚ) → P → P × List ℚ
  | [], b => (b, [])
  | pr :: pn, b =>
    let b1 := ops.sub b (ops.divScalar (ops.scale pr.1 (ops.E (ops.mul b pr.1))) pr.2)
    ((orthUnnormed ops pn b1).1, pr.2 :: (orthUnnormed ops pn b1).2)

/-- Main loop of the `normed=True` path of `orth_gs` (gram_schmidt.py lines
57-73).  State: remaining basis polynomials, `lastP = polynomials[-1]`, the
accepted polynomials, the list of norms tested by the `norms <= 0` guard, and
the list of scalars passed to the `basis[idx] / numpy.sqrt(norms)` division.
The final `Bool` records whether the `logger.warning` / `break` cutoff fired.
As in the source, the tested norm is `E(polynomials[-1]**2)` and the same
scalar is subsequently used for the normalizing division. -/
def gsNormedAux {P : Type} (ops : PolyOps P) :
    List P → P → List P → List ℚ → List ℚ → List P × List ℚ × List ℚ × Bool
  | [], _, polys, checked, divs => (polys, checked, divs, false)
  | b :: rest, lastP, polys, checked, divs =>
    let b1 := orthNormed ops polys b
    let n := ops.E (ops.mul lastP lastP)
    if n ≤ 0 then (polys, checked ++ [n], divs, true)
    else
      gsNormedAux ops rest (ops.divSqrt b1 n) (polys ++ [ops.divSqrt b1 n])
        (checked ++ [n]) (divs ++ [n])

/-- `orth_gs(order, dist, normed=True)` (gram_schmidt.py lines 53-73):
starting from `polynomials = [basis[0]]`, iterate over the remaining basis.
Returns the accepted polynomials, the checked norms, the normalizing division
scalars, and the cutoff flag. -/
def orth_gs_normed {P : Type} (ops : PolyOps P) (b0 : P) (rest : List P) :
    List P × List ℚ × List ℚ × Bool :=
  gsNormedAux ops rest b0 [b0] [] []

/-- Main loop of the `normed=False` path of `orth_gs` (gram_schmidt.py lines
75-92).  State: remaining basis polynomials, `lastP = polynomials[-1]`,
accepted polynomials, the `norms` list (seeded with `[1.]`), and the recorded
division scalars.  Each iteration orthogonalizes against `polynomials[idy]`
dividing by `norms[idy]`, then appends `E(polynomials[-1]**2)` to `norms` and
breaks when that value is non-positive. -/
def gsUnnormedAux {P : Type} (ops : PolyOps P) :
    List P → P → List P → List ℚ → List ℚ → List P × List ℚ × Bool
  | [], _, polys, _, divs => (polys, divs, false)
  | b :: rest, lastP, polys, norms, divs =>
    let bd := orthUnnormed ops (polys.zip norms) b
    let n := ops.E (ops.mul lastP lastP)
    if n ≤ 0 then (polys, divs ++ bd.2, true)
    else gsUnnormedAux ops rest bd.1 (polys ++ [bd.1]) (norms ++ [n]) (divs ++ bd.2)

/-- `orth_gs(order, dist, normed=False)` (gram_schmidt.py lines 75-94):
`polynomials = [basis[0]]`, `norms = [1.]`, then the main loop.  Returns the
accepted polynomials, the recorded division scalars, and the cutoff flag. -/
def orth_gs_unnormed {P : Type} (ops : PolyOps P) (b0 : P) (rest : List P) :
    List P × List ℚ × Bool :=
  gsUnnormedAux ops rest b0 [b0] [1] []

/-- Concrete instantiation of the polynomial interface on scalars, used to
exercise the Gram-Schmidt guard on an explicit run. -/
def opsW : PolyOps ℚ :=
  ⟨(· * ·), (· - ·), (· * ·), (· / ·), (· / ·), id⟩

/-! ### Lagrange polynomials (`chaospy/orthogonal/lagrange.py`) -/

/-- The error raised by `lagrange_polynomial` through
`numpy.linalg.LinAlgError("invertible matrix required")` (lagrange.py line 50). -/
inductive LinAlgError
  | singularMatrix

/-- Laplace expansion along the first row, modelling the value of
`numpy.linalg.det` exactly over the rationals. -/
def detL : (n : ℕ) → Matrix (Fin n) (Fin n) ℚ → ℚ
  | 0, _ => 1
  | n + 1, M =>
    ∑ j : Fin (n + 1), (-1) ^ (j : ℕ) * M 0 j * detL n (M.submatrix Fin.succ j.succAbove)

/-- The interpolation matrix `matrix = numpy.prod(abscissas.T[idx]**indices[idy], -1)`
(lagrange.py lines 40-47), specialized to one dimension.  Modelled from the
spec for the exponent enumeration: `chaospy.bertran` is not under `src/`; in
one dimension `terms(order, 1) = order + 1`, so the `while` loop at line 41
ends with `order = size`, and `bindex(0, order-1, 1, sort)[:size]` enumerates
the exponents `0, 1, …, size-1`, giving the Vandermonde-type matrix
`matrix[i, j] = abscissas[i] ** j` of the spec. -/
def interpMatrix (n : ℕ) (xs : Fin n → ℚ) : Matrix (Fin n) (Fin n) ℚ :=
  Matrix.of fun i j => xs i ^ (j : ℕ)

/-- Explicit 2×2 inverse (adjugate over determinant), the value computed by
`numpy.linalg.inv(matrix)` in the `size == 2` branch (lagrange.py line 61). -/
def inv2 (M : Matrix (Fin 2) (Fin 2) ℚ) : Matrix (Fin 2) (Fin 2) ℚ :=
  (detL 2 M)⁻¹ • Matrix.of ![![M 1 1, -M 0 1], ![-M 1 0, M 0 0]]

/-- One entry of the cofactor accumulation of the `size >= 3` branch
(lagrange.py lines 65-69): at loop position `(i, j)` the matrix has been
cyclically rolled `j` times by `-1` along rows and `i` times along columns, so
`matrix[1:, 1:]` is the minor obtained by the double submatrix below; its
determinant is the value added to `coeffs[i, j]`. -/
def rolledMinor {n : ℕ} (M : Matrix (Fin (n + 1)) (Fin (n + 1)) ℚ) (i j : Fin (n + 1)) : ℚ :=
  detL n ((M.submatrix (· + j) (· + i)).submatrix Fin.succ Fin.succ)

/-- The coefficient table produced by the three branches of
`lagrange_polynomial` (lagrange.py lines 57-71).  `lagrangeCoeffs n xs a b` is
the coefficient of the monomial `q0**b` in the `a`-th returned polynomial,
i.e. the entry `coeffs[b, a]` of the source (`out = numpoly.sum(coeffs.T*vec, 1)`
makes polynomial `a` pick up `coeffs[b, a] * q0**b`):
* `size == 1`: `out = numpoly.basis(0, 0, dim, sort) * abscissas.item()`, the
  constant polynomial with value `abscissas[0]`;
* `size == 2`: `coeffs = numpy.linalg.inv(matrix)`;
* `size >= 3`: `coeffs[i, j] = det(rolled minor)`, then `coeffs /= det`. -/
def lagrangeCoeffs : (n : ℕ) → (Fin n → ℚ) → Fin n → Fin n → ℚ
  | 0, _ => fun _ _ => 0
  | 1, xs => fun _ _ => xs 0
  | 2, xs => fun a b => inv2 (interpMatrix 2 xs) b a
  | n + 3, xs => fun a b =>
    rolledMinor (interpMatrix (n + 3) xs) b a / detL (n + 3) (interpMatrix (n + 3) xs)

/-- `lagrange_polynomial(abscissas)` (lagrange.py lines 14-73), one
dimension: build the interpolation matrix, raise
`LinAlgError("invertible matrix required")` when its determinant is zero
(lines 48-50), and otherwise return the polynomial coefficient table of the
appropriate size branch. -/
def lagrange_polynomial (n : ℕ) (xs : Fin n → ℚ) :
    Except LinAlgError (Fin n → Fin n → ℚ) :=
  if detL n (interpMatrix n xs) = 0 then .error .singularMatrix
  else .ok (lagrangeCoeffs n xs)

/-- Successful output of `lagrange_polynomial` (zero table when the call
raised). -/
def lagrangeOut (n : ℕ) (xs : Fin n → ℚ) : Fin n → Fin n → ℚ :=
  match lagrange_polynomial n xs with
  | .ok o => o
  | .error _ => fun _ _ => 0

/-- Evaluation of a polynomial given by its monomial coefficients at a point
(`poly(x)` of the numpoly backend, one dimension). -/
def polyEval {n : ℕ} (c : Fin n → ℚ) (x : ℚ) : ℚ :=
  ∑ b : Fin n, c b * x ^ (b : ℕ)

/-! ### Combinator cache lookups (arcsin.py lines 62-72, arctan.py lines 59-69) -/

/-- Distribution expressions: an opaque wrapped distribution, or one of the
two transform combinators under study applied to an inner distribution. -/
inductive DistE where
  | leaf : ℕ → DistE
  | arcsinT : DistE → DistE
  | arctanT : DistE → DistE

/-- Result of a cache lookup: either a concrete numeric value or a
still-symbolic distribution (the source distinguishes the two cases with
`isinstance(dist, Dist)`). -/
inductive EvalResult where
  | num : ℝ → EvalResult
  | dist : DistE → EvalResult

/-- Modelled from the spec: `evaluation.get_forward_cache(dist, cache)` (the
`chaospy.distributions.evaluation` module is not under `src/`).  Per spec
§4.2, a combinator "must query the cache with the *inner* distribution's
identity before falling back to direct evaluation"; the lookup returns the
concrete cached number when one is stored for the queried distribution, and
the (symbolic) distribution itself otherwise. -/
def get_forward_cache (d : DistE) (cache : DistE → Option ℝ) : EvalResult :=
  match cache d with
  | some v => .num v
  | none => .dist d

/-- `Arcsin._fwd_cache` (arcsin.py lines 62-66): look the wrapped distribution
up in the cache; if the result is not a `Dist`, return `numpy.arcsin` of it,
otherwise return `self`. -/
noncomputable def Arcsin_fwd_cache (inner : DistE) (cache : DistE → Option ℝ) : EvalResult :=
  match get_forward_cache inner cache with
  | .num v => .num (Real.arcsin v)
  | .dist _ => .dist (.arcsinT inner)

/-- `Arcsin._inv_cache` (arcsin.py lines 68-72): as `_fwd_cache` but mapping
the cached number through `numpy.sin`. -/
noncomputable def Arcsin_inv_cache (inner : DistE) (cache : DistE → Option ℝ) : EvalResult :=
  match get_forward_cache inner cache with
  | .num v => .num (Real.sin v)
  | .dist _ => .dist (.arcsinT inner)

/-- `Arctan._fwd_cache` (arctan.py lines 59-63): cached number mapped through
`numpy.arctan`, else `self`. -/
noncomputable def Arctan_fwd_cache (inner : DistE) (cache : DistE → Option ℝ) : EvalResult :=
  match get_forward_cache inner cache with
  | .num v => .num (Real.arctan v)
  | .dist _ => .dist (.arctanT inner)

/-- `Arctan._inv_cache` (arctan.py lines 65-69): cached number mapped through
`numpy.tan`, else `self`. -/
noncomputable def Arctan_inv_cache (inner : DistE) (cache : DistE → Option ℝ) : EvalResult :=
  match get_forward_cache inner cache with
  | .num v => .num (Real.tan v)
  | .dist _ => .dist (.arctanT inner)

/-- A cache holding the concrete value `0` for every distribution. -/
def cacheZero : DistE → Option ℝ := fun _ => some 0

/-- The empty cache. -/
def cacheNone : DistE → Option ℝ := fun _ => none

/-! ### Gaussian quadrature driver (`chaospy/quadrature/gaussian.py`) -/

/-- The recurrence-algorithm selector of `quad_gaussian`: in the source a
string, `""` (the default, written `unspecified` here), `"analytical"` or
`"stieltjes"`. -/
inductive RecAlg where
  | unspecified
  | analytical
  | stieltjes

/-- The `NotImplementedError` a distribution raises from `_ttr` when it has no
analytical three-term recurrence (gaussian.py lines 156-160). -/
inductive NotImplementedError where
  | notImplemented

/-- A distribution as seen by the recurrence constructor: an optional
analytical three-term recurrence `_ttr` (absent exactly when the distribution
raises `NotImplementedError`), and the discretized-Stieltjes approximation
that is always available. -/
structure DistR where
  analyticTTR : Option (ℕ → ℝ × ℝ)
  stieltjesTTR : ℕ → ℝ × ℝ

/-- Modelled from the spec: `construct_recurrence_coefficients(order, dist,
rule, accuracy, recurrence_algorithm)` of `chaospy/quadrature/recurrence`,
which is not under `src/`.  Spec §4.3: "if `algorithm` is unspecified, try
'analytical' (distribution exposes closed-form recurrence) first; on failure
(distribution does not implement it, or raises `NotImplementedError`), fall
back to 'stieltjes'"; an explicit `"analytical"` request on a distribution
without the closed form propagates the error (gaussian.py docstring lines
156-160). -/
def construct_recurrence_coefficients (order : ℕ) (dist : DistR) (algorithm : RecAlg) :
    Except NotImplementedError (List (ℝ × ℝ)) :=
  match algorithm with
  | .unspecified =>
    match dist.analyticTTR with
    | some ttr => .ok ((List.range (order + 1)).map ttr)
    | none => .ok ((List.range (order + 1)).map dist.stieltjesTTR)
  | .analytical =>
    match dist.analyticTTR with
    | some ttr => .ok ((List.range (order + 1)).map ttr)
    | none => .error .notImplemented
  | .stieltjes => .ok ((List.range (order + 1)).map dist.stieltjesTTR)

/-- `quad_gaussian` (gaussian.py lines 182-185): construct the recurrence
coefficients, then convert them to abscissas and weights; the conversion
`coefficients_to_quadrature` lives in the `recurrence` module outside `src/`
and is abstracted as `c2q`. -/
def quad_gaussian_model (c2q : List (ℝ × ℝ) → List ℝ × List ℝ) (order : ℕ)
    (dist : DistR) (algorithm : RecAlg) :
    Except NotImplementedError (List ℝ × List ℝ) :=
  (construct_recurrence_coefficients order dist algorithm).map c2q

/-- A concrete coefficients-to-quadrature conversion used for witnesses. -/
def c2qW : List (ℝ × ℝ) → List ℝ × List ℝ :=
  fun c => (c.map Prod.fst, c.map Prod.snd)

/-- A distribution with an analytical recurrence (like `Normal`). -/
def distA : DistR := ⟨some fun k => (0, k), fun k => (0, k)⟩

/-- A distribution without an analytical recurrence (like `Triangle`). -/
def distT : DistR := ⟨none, fun k => (0, k)⟩

/-! ### Quadrature weights (spec §4.4-§4.5, modules outside `src/`) -/

/-- Modelled from the spec (§4.4): the "symmetric tridiagonal (Jacobi) matrix
with diagonal `alpha` and off-diagonal `sqrt(beta[1:])`". -/
noncomputable def jacobiMatrix (alpha beta : ℕ → ℝ) (n : ℕ) : Matrix (Fin n) (Fin n) ℝ :=
  Matrix.of fun i j =>
    if (i : ℕ) = (j : ℕ) then alpha i
    else if (i : ℕ) + 1 = (j : ℕ) then Real.sqrt (beta ((i : ℕ) + 1))
    else if (j : ℕ) + 1 = (i : ℕ) then Real.sqrt (beta ((j : ℕ) + 1))
    else 0

/-- Modelled from the spec (§4.4): `coefficients_to_quadrature` (module
`chaospy/quadrature/recurrence`, not under `src/`) computes "eigenvalues
(→ abscissas) and the squared first components of normalized eigenvectors
scaled by `beta[0]` (→ weights)" of the Jacobi matrix.  The predicate states
that `xs` and `ws` are such an eigen-decomposition: `V` has orthonormal
columns diagonalizing the Jacobi matrix with eigenvalues `xs`, and
`ws i = beta 0 * (V 0 i)^2`. -/
def isSpectralQuad (alpha beta : ℕ → ℝ) (n : ℕ) (xs ws : Fin (n + 1) → ℝ) : Prop :=
  ∃ V : Matrix (Fin (n + 1)) (Fin (n + 1)) ℝ,
    V.transpose * V = 1 ∧
    jacobiMatrix alpha beta (n + 1) * V = V * Matrix.diagonal xs ∧
    ∀ i, ws i = beta 0 * (V 0 i) ^ 2

/-- Modelled from the spec (§4.5): `combine_quadrature` (module
`chaospy/quadrature/combine`, not under `src/`): "joint abscissa set is the
Cartesian product of per-dimension points, joint weight is the product of
per-dimension weights". -/
def combine_quadrature : List (List ℝ × List ℝ) → List (List ℝ) × List ℝ
  | [] => ([[]], [1])
  | r :: rs =>
    ((combine_quadrature rs).1.flatMap fun p => r.1.map fun x => x :: p,
     (combine_quadrature rs).2.flatMap fun v => r.2.map fun w => w * v)

/-! ### Gauss-Hermite quadrature for `Normal(0, 1)` (gaussian.py lines 21-27,
166-172) -/

/-- The monic orthogonal polynomials of the standard normal distribution: the
spec's three-term recurrence `p_{n+1}(x) = (x - alpha_n) p_n(x) - beta_n
p_{n-1}(x)` (§3) instantiated with the normal's analytical coefficients
`alpha_n = 0`, `beta_n = n`, i.e. the probabilists' Hermite polynomials. -/
noncomputable def heR : ℕ → ℝ → ℝ
  | 0, _ => 1
  | 1, x => x
  | n + 2, x => x * heR (n + 1) x - ((n : ℝ) + 1) * heR n x

/-- `120 * ∑_{k ≤ 5} heR k x ^ 2 / k!`: the (denominator-cleared) Christoffel
normalization `∑_k p̂_k(x)^2` of the order-5 Hermite rule, with
`p̂_k = heR k / sqrt(k!)` the orthonormal polynomials
(`120/k! = 120, 120, 60, 20, 5, 1`). -/
noncomputable def christoffelDen (x : ℝ) : ℝ :=
  120 * heR 0 x ^ 2 + 120 * heR 1 x ^ 2 + 60 * heR 2 x ^ 2
    + 20 * heR 3 x ^ 2 + 5 * heR 4 x ^ 2 + heR 5 x ^ 2

/-- The degree-6 probabilists' Hermite polynomial as a `Polynomial`, used to
count its roots. -/
noncomputable def heP : Polynomial ℝ :=
  Polynomial.X ^ 6 - Polynomial.C 15 * Polynomial.X ^ 4
    + Polynomial.C 45 * Polynomial.X ^ 2 - Polynomial.C 15

/-- Modelled from the spec: the quadrature rule returned by
`quad_gaussian(5, chaospy.Normal(0, 1))` (gaussian.py lines 119-185; the
`construct_recurrence_coefficients` and `coefficients_to_quadrature` helpers
live in the `recurrence` module outside `src/`).  The standard normal's
analytical three-term recurrence is `alpha_k = 0`, `beta_k = k` (`beta_0 = 1`),
whose monic orthogonal polynomials are `heR`.  Spec §4.4 forms the Jacobi
matrix of these coefficients; its eigenvalues — the abscissas, sorted
ascending as the symmetric eigensolver returns them — are exactly the roots
of the degree-6 polynomial `heR 6`, and the weights (`beta 0` times the
squared first components of the normalized eigenvectors) are the Christoffel
numbers `1 / ∑_{k ≤ 5} (heR k x)^2 / k!`, written denominator-free through
`christoffelDen`. -/
def isGaussHermite5 (xs ws : Fin 6 → ℝ) : Prop :=
  StrictMono xs ∧ (∀ i, heR 6 (xs i) = 0) ∧
    ∀ i, ws i * christoffelDen (xs i) = 120

/-- The abscissas of the doctest at gaussian.py lines 169-170. -/
noncomputable def targetX : Fin 6 → ℝ := fun i =>
  if (i : ℕ) = 0 then -33243/10000
  else if (i : ℕ) = 1 then -18892/10000
  else if (i : ℕ) = 2 then -6167/10000
  else if (i : ℕ) = 3 then 6167/10000
  else if (i : ℕ) = 4 then 18892/10000
  else 33243/10000

/-- The weights of the doctest at gaussian.py lines 171-172. -/
noncomputable def targetW : Fin 6 → ℝ := fun i =>
  if (i : ℕ) = 0 then 26/10000
  else if (i : ℕ) = 1 then 886/10000
  else if (i : ℕ) = 2 then 4088/10000
  else if (i : ℕ) = 3 then 4088/10000
  else if (i : ℕ) = 4 then 886/10000
  else 26/10000

/-- Lower ends of six disjoint intervals, each bracketing one root of
`heR 6`. -/
noncomputable def intA : Fin 6 → ℝ := fun i =>
  if (i : ℕ) = 0 then -3324259/1000000
  else if (i : ℕ) = 1 then -1889177/1000000
  else if (i : ℕ) = 2 then -616708/1000000
  else if (i : ℕ) = 3 then 616705/1000000
  else if (i : ℕ) = 4 then 1889175/1000000
  else 3324256/1000000

/-- Upper ends of the six root-bracketing intervals. -/
noncomputable def intB : Fin 6 → ℝ := fun i =>
  if (i : ℕ) = 0 then -3324256/1000000
  else if (i : ℕ) = 1 then -1889175/1000000
  else if (i : ℕ) = 2 then -616705/1000000
  else if (i : ℕ) = 3 then 616708/1000000
  else if (i : ℕ) = 4 then 1889177/1000000
  else 3324259/1000000

end Chaospy

namespace Chaospy

/-- `bdtr(size, size, prob) = 1`: the binomial point masses sum to one
(binomial theorem). -/
theorem binCdfNat_self (n : ℕ) (p : ℚ) : binCdfNat n p n = 1 := by
  unfold binCdfNat binPmf
  calc ∑ i ∈ Finset.range (n + 1), (n.choose i : ℚ) * p ^ i * (1 - p) ^ (n - i)
      = ∑ i ∈ Finset.range (n + 1), p ^ i * (1 - p) ^ (n - i) * (n.choose i : ℚ) := by
        exact Finset.sum_congr rfl fun i _ => by ring
    _ = (p + (1 - p)) ^ n := (add_pow p (1 - p) n).symm
    _ = 1 := by norm_num

/-- The right fold implementing the generalized inverse always lands on an
index whose CDF value dominates `q`, provided the default index does. -/
theorem foldr_if_le {c : ℕ → ℚ} {q : ℚ} (l : List ℕ) (d : ℕ) (hd : q ≤ c d) :
    q ≤ c (l.foldr (fun k acc => if q ≤ c k then k else acc) d) := by
  induction l with
  | nil => exact hd
  | cons k l ih =>
    simp only [List.foldr_cons]
    split
    · assumption
    · exact ih

/-- Evaluating the binomial forward CDF at a whole number `k` sums the point
masses up to `k`. -/
theorem binForward_natCast (n : ℕ) (p : ℚ) (k : ℕ) :
    binForward n p (k : ℚ) = binCdfNat n p k := by
  simp [binForward]

/-- The binomial round trip is the CDF evaluated at the integer quantile. -/
theorem binRoundTrip_eq (n : ℕ) (p q : ℚ) :
    binRoundTrip n p q = binCdfNat n p (binPpf n p q) := by
  simp [binRoundTrip, binForward]

/-- **C4.** For `Binomial(size=5, prob=0.5)`, the inverse CDF at the eight
equally spaced quantiles `[0, 1/7, …, 6/7, 1]` is exactly `[0, 1, 2, 2, 3, 3, 4, 5]`,
and the forward CDF of those inverse values is `[0.0312, 0.1875, 0.5, 0.5,
0.8125, 0.8125, 0.9688, 1.0]` within tolerance `1e-4`. -/
theorem C4_binomial_doctest :
    ([0, 1/7, 2/7, 3/7, 4/7, 5/7, 6/7, 1] : List ℚ).map (binPpf 5 (1/2))
      = [0, 1, 2, 2, 3, 3, 4, 5] ∧
    List.Forall₂ (fun a b => |a - b| ≤ 1/10000)
      (([0, 1/7, 2/7, 3/7, 4/7, 5/7, 6/7, 1] : List ℚ).map (binRoundTrip 5 (1/2)))
      [312/10000, 1875/10000, 5000/10000, 5000/10000,
       8125/10000, 8125/10000, 9688/10000, 10000/10000] := by
  have hmap : ([0, 1/7, 2/7, 3/7, 4/7, 5/7, 6/7, 1] : List ℚ).map (binPpf 5 (1/2))
      = [0, 1, 2, 2, 3, 3, 4, 5] := by
    unfold binPpf
    norm_num [binCdfNat, binPmf, Nat.choose, Finset.sum_range_succ, List.range_succ]
  have hmap' := hmap
  simp only [List.map_cons, List.map_nil, List.cons.injEq, and_true] at hmap'
  obtain ⟨e0, e1, e2, e3, e4, e5, e6, e7⟩ := hmap'
  have hrt : ([0, 1/7, 2/7, 3/7, 4/7, 5/7, 6/7, 1] : List ℚ).map (binRoundTrip 5 (1/2))
      = [1/32, 3/16, 1/2, 1/2, 13/16, 13/16, 31/32, 1] := by
    simp only [List.map_cons, List.map_nil, binRoundTrip_eq, e0, e1, e2, e3, e4, e5, e6, e7]
    norm_num [binCdfNat, binPmf, Nat.choose, Finset.sum_range_succ]
  refine ⟨hmap, ?_⟩
  rw [hrt]
  refine .cons ?_ (.cons ?_ (.cons ?_ (.cons ?_ (.cons ?_ (.cons ?_ (.cons ?_
    (.cons ?_ .nil))))))) <;> rw [abs_le] <;> constructor <;> norm_num

/-- **C1, counterexample.** The claimed 1e-4 round trip
`D.forward(D.inverse(q)) ≈ q` fails at the discrete distribution
`Binomial(size=5, prob=0.5)` with `q = 1/7 ∈ (0,1)`: the round trip returns
`0.1875`, which differs from `1/7 ≈ 0.142857` by `5/112 > 1e-4`. -/
theorem C1_roundtrip_counterexample :
    ¬ |binRoundTrip 5 (1/2) (1/7) - 1/7| ≤ 1/10000 := by
  have hppf : binPpf 5 (1/2) (1/7) = 1 := by
    unfold binPpf
    norm_num [binCdfNat, binPmf, Nat.choose, Finset.sum_range_succ, List.range_succ]
  have hval : binRoundTrip 5 (1/2) (1/7) = 3/16 := by
    rw [binRoundTrip_eq, hppf]
    norm_num [binCdfNat, binPmf, Nat.choose, Finset.sum_range_succ]
  rw [hval, show (3:ℚ)/16 - 1/7 = 5/112 by norm_num, abs_of_pos (by norm_num)]
  norm_num

/-- **C1, amended.** The 1e-4 round trip `D.forward(D.inverse(q)) ≈ q` for
`q ∈ (0,1)` holds for continuous transforms but not for discrete
distributions.  (i) For the discrete Binomial distribution the round trip
instead returns the smallest attained CDF value dominating `q`, so it is `≥ q`
but may exceed `q` by more than 1e-4 (see the counterexample).  (ii) For the
Arcsin transform the round trip collapses exactly to the wrapped
distribution's own round trip (`sin (arcsin y) = y` whenever the inner inverse
value `y` lies in `[-1, 1]`), so it is within 1e-4 of `q` whenever the inner
round trip is. -/
theorem C1_roundtrip_amended :
    (∀ (n : ℕ) (p q : ℚ), 0 < q → q ≤ 1 → q ≤ binRoundTrip n p q) ∧
    (∀ (F Finv : ℝ → ℝ) (q : ℝ), -1 ≤ Finv q → Finv q ≤ 1 →
      Arcsin_cdf F (Arcsin_ppf Finv q) = F (Finv q)) := by
  constructor
  · intro n p q _ hq1
    rw [binRoundTrip_eq]
    unfold binPpf
    exact foldr_if_le _ n (by rw [binCdfNat_self]; exact hq1)
  · intro F Finv q h1 h2
    unfold Arcsin_cdf Arcsin_ppf
    rw [Real.sin_arcsin h1 h2]

/-- Witness for `C1_roundtrip_amended` at `Binomial(5, 1/2)`, `q = 1/2` and at
the identity inner distribution, `q = 1/2`. -/
theorem C1_roundtrip_amended_witness :
    ((1:ℚ)/2 ≤ binRoundTrip 5 (1/2) (1/2)) ∧
      Arcsin_cdf id (Arcsin_ppf id (1/2)) = (1/2 : ℝ) :=
  ⟨C1_roundtrip_amended.1 5 (1/2) (1/2) (by norm_num) (by norm_num),
   C1_roundtrip_amended.2 id id (1/2) (by norm_num) (by norm_num)⟩

/-- The division scalars recorded by one unnormalized orthogonalization pass
are exactly the `norms[idy]` entries zipped with the accepted polynomials. -/
theorem orthUnnormed_snd {P : Type} (ops : PolyOps P) :
    ∀ (pn : List (P × ℚ)) (b : P), (orthUnnormed ops pn b).2 = pn.map Prod.snd := by
  intro pn
  induction pn with
  | nil => intro b; rfl
  | cons pr pn ih => intro b; simp [orthUnnormed, ih]

/-- Invariant of the unnormalized Gram-Schmidt loop: if the incoming `norms`
and recorded divisors are positive, then all recorded divisors stay positive,
and the cutoff truncates the output strictly below the requested count. -/
theorem gsUnnormedAux_spec {P : Type} (ops : PolyOps P) (rest : List P) :
    ∀ (lastP : P) (polys : List P) (norms divs : List ℚ),
      (∀ x ∈ norms, 0 < x) → (∀ d ∈ divs, 0 < d) →
      ((gsUnnormedAux ops rest lastP polys norms divs).2.2 = true →
          (gsUnnormedAux ops rest lastP polys norms divs).1.length
            < polys.length + rest.length) ∧
        (∀ d ∈ (gsUnnormedAux ops rest lastP polys norms divs).2.1, 0 < d) := by
  induction rest with
  | nil =>
    intro lastP polys norms divs hn hd
    exact ⟨fun hcut => by simp [gsUnnormedAux] at hcut, by simpa [gsUnnormedAux] using hd⟩
  | cons b rest ih =>
    intro lastP polys norms divs hn hd
    have hdiv : ∀ d ∈ divs ++ (orthUnnormed ops (polys.zip norms) b).2, 0 < d := by
      intro d hdm
      rcases List.mem_append.mp hdm with h | h
      · exact hd d h
      · rw [orthUnnormed_snd] at h
        obtain ⟨pr, hpr, hpr2⟩ := List.mem_map.mp h
        exact hpr2 ▸ hn _ (List.of_mem_zip hpr).2
    simp only [gsUnnormedAux]
    by_cases hle : ops.E (ops.mul lastP lastP) ≤ 0
    · rw [if_pos hle]
      exact ⟨fun _ => by simp only [List.length_cons]; omega, hdiv⟩
    · rw [if_neg hle]
      have hpos : 0 < ops.E (ops.mul lastP lastP) := not_le.mp hle
      have hn' : ∀ x ∈ norms ++ [ops.E (ops.mul lastP lastP)], 0 < x := by
        intro x hx
        rcases List.mem_append.mp hx with h | h
        · exact hn x h
        · simpa using List.mem_singleton.mp h ▸ hpos
      have := ih (orthUnnormed ops (polys.zip norms) b).1
        (polys ++ [(orthUnnormed ops (polys.zip norms) b).1])
        (norms ++ [ops.E (ops.mul lastP lastP)])
        (divs ++ (orthUnnormed ops (polys.zip norms) b).2) hn' hdiv
      refine ⟨fun hcut => ?_, this.2⟩
      have hlen := this.1 hcut
      simp only [List.length_append, List.length_cons, List.length_nil] at hlen ⊢
      omega

/-- Invariant of the normalized Gram-Schmidt loop: recorded normalizing
divisors stay positive, the cutoff truncates the output strictly below the
requested count, and the checked-norm list coincides with the divisor list
(with a final non-positive checked entry if and only if the cutoff fired). -/
theorem gsNormedAux_spec {P : Type} (ops : PolyOps P) (rest : List P) :
    ∀ (lastP : P) (polys : List P) (checked divs : List ℚ),
      checked = divs → (∀ d ∈ divs, 0 < d) →
      ((gsNormedAux ops rest lastP polys checked divs).2.2.2 = true →
          (gsNormedAux ops rest lastP polys checked divs).1.length
            < polys.length + rest.length) ∧
        (∀ d ∈ (gsNormedAux ops rest lastP polys checked divs).2.2.1, 0 < d) ∧
        ((gsNormedAux ops rest lastP polys checked divs).2.2.2 = false →
          (gsNormedAux ops rest lastP polys checked divs).2.1
            = (gsNormedAux ops rest lastP polys checked divs).2.2.1) ∧
        ((gsNormedAux ops rest lastP polys checked divs).2.2.2 = true →
          ∃ nn, nn ≤ 0 ∧ (gsNormedAux ops rest lastP polys checked divs).2.1
            = (gsNormedAux ops rest lastP polys checked divs).2.2.1 ++ [nn]) := by
  induction rest with
  | nil =>
    intro lastP polys checked divs hcd hd
    refine ⟨fun hcut => by simp [gsNormedAux] at hcut, ?_, ?_, ?_⟩
    · simpa [gsNormedAux] using hd
    · intro _; simpa [gsNormedAux] using hcd
    · intro hcut; simp [gsNormedAux] at hcut
  | cons b rest ih =>
    intro lastP polys checked divs hcd hd
    simp only [gsNormedAux]
    by_cases hle : ops.E (ops.mul lastP lastP) ≤ 0
    · rw [if_pos hle]
      refine ⟨fun _ => by simp only [List.length_cons]; omega, hd, ?_, ?_⟩
      · intro hfalse; simp at hfalse
      · intro _
        exact ⟨ops.E (ops.mul lastP lastP), hle, by rw [hcd]⟩
    · rw [if_neg hle]
      have hpos : 0 < ops.E (ops.mul lastP lastP) := not_le.mp hle
      have hd' : ∀ d ∈ divs ++ [ops.E (ops.mul lastP lastP)], 0 < d := by
        intro x hx
        rcases List.mem_append.mp hx with h | h
        · exact hd x h
        · simpa using List.mem_singleton.mp h ▸ hpos
      have := ih (ops.divSqrt (orthNormed ops polys b) (ops.E (ops.mul lastP lastP)))
        (polys ++ [ops.divSqrt (orthNormed ops polys b) (ops.E (ops.mul lastP lastP))])
        (checked ++ [ops.E (ops.mul lastP lastP)])
        (divs ++ [ops.E (ops.mul lastP lastP)]) (by rw [hcd]) hd'
      refine ⟨fun hcut => ?_, this.2.1, this.2.2.1, this.2.2.2⟩
      have hlen := this.1 hcut
      simp only [List.length_append, List.length_cons, List.length_nil] at hlen ⊢
      omega

/-- **C2.** In `orth_gs`, whenever a computed norm is non-positive the loop
stops with a warning and the returned basis is strictly shorter than
requested; every scalar actually used as a divisor (the `norms[idy]` of the
unnormalized path, the `numpy.sqrt(norms)` arguments of the normalized path)
is positive; the non-positive-norm guard is present in both the
`normed=True` and `normed=False` paths; and in the normalized path the list
of checked norms is exactly the list of normalizing division scalars (with
one extra, final, non-positive checked entry exactly when the cutoff
fired). -/
theorem C2_gram_schmidt_guard {P : Type} (ops : PolyOps P) (b0 : P) (rest : List P) :
    ((orth_gs_normed ops b0 rest).2.2.2 = true →
        (orth_gs_normed ops b0 rest).1.length < 1 + rest.length) ∧
      (∀ d ∈ (orth_gs_normed ops b0 rest).2.2.1, 0 < d) ∧
      ((orth_gs_normed ops b0 rest).2.2.2 = false →
        (orth_gs_normed ops b0 rest).2.1 = (orth_gs_normed ops b0 rest).2.2.1) ∧
      ((orth_gs_normed ops b0 rest).2.2.2 = true →
        ∃ nn, nn ≤ 0 ∧ (orth_gs_normed ops b0 rest).2.1
          = (orth_gs_normed ops b0 rest).2.2.1 ++ [nn]) ∧
      ((orth_gs_unnormed ops b0 rest).2.2 = true →
        (orth_gs_unnormed ops b0 rest).1.length < 1 + rest.length) ∧
      (∀ d ∈ (orth_gs_unnormed ops b0 rest).2.1, 0 < d) := by
  have hN := gsNormedAux_spec ops rest b0 [b0] [] [] rfl (by intro d hd; simp at hd)
  have hU := gsUnnormedAux_spec ops rest b0 [b0] [1] []
    (by intro x hx; simp at hx; simp [hx]) (by intro d hd; simp at hd)
  unfold orth_gs_normed orth_gs_unnormed
  simp only [List.length_singleton] at hN hU
  exact ⟨hN.1, hN.2.1, hN.2.2.1, hN.2.2.2, hU.1, hU.2⟩

/-- Witness for `C2_gram_schmidt_guard`: on the scalar instantiation with
basis `[1, 2, 3]` and expectation `id`, the unnormalized path cuts off at the
third term (the second accepted polynomial is `0`, whose norm is `0`),
returning only two polynomials, and the recorded divisor `1` is positive. -/
theorem C2_gram_schmidt_guard_witness :
    (orth_gs_unnormed opsW 1 [2, 3]).1.length < 3 ∧ (0:ℚ) < 1 := by
  have h := C2_gram_schmidt_guard opsW 1 [2, 3]
  have hval : orth_gs_unnormed opsW (1:ℚ) [2, 3] = ([1, 0], [1, 1, 1], true) := by
    norm_num [orth_gs_unnormed, gsUnnormedAux, orthUnnormed, opsW]
  exact ⟨h.2.2.2.2.1 (by rw [hval]), h.2.2.2.2.2 1 (by rw [hval]; simp)⟩

/-- The Laplace-expansion determinant agrees with the abstract determinant. -/
theorem detL_eq_det : ∀ (n : ℕ) (M : Matrix (Fin n) (Fin n) ℚ), detL n M = M.det := by
  intro n
  induction n with
  | zero => intro M; simp [detL]
  | succ n ih =>
    intro M
    rw [detL, Matrix.det_succ_row_zero]
    exact Finset.sum_congr rfl fun j _ => by rw [ih]

/-- **C7.** `lagrange_polynomial` raises the singular-matrix error exactly
when the Vandermonde-type interpolation matrix built from the abscissas has
determinant zero, which happens exactly when two abscissas coincide; for
non-singular abscissa configurations the polynomial table is returned and no
error is raised. -/
theorem C7_lagrange_singular_error (n : ℕ) (xs : Fin n → ℚ) :
    ((∃ e, lagrange_polynomial n xs = .error e) ↔ (Matrix.vandermonde xs).det = 0) ∧
      ((∃ e, lagrange_polynomial n xs = .error e) ↔ ∃ i j, xs i = xs j ∧ i ≠ j) ∧
      ((Matrix.vandermonde xs).det ≠ 0 →
        lagrange_polynomial n xs = .ok (lagrangeCoeffs n xs)) := by
  have hdet : detL n (interpMatrix n xs) = (Matrix.vandermonde xs).det := by
    rw [detL_eq_det]; rfl
  have herr : (∃ e, lagrange_polynomial n xs = .error e) ↔ (Matrix.vandermonde xs).det = 0 := by
    unfold lagrange_polynomial
    rw [hdet]
    constructor
    · rintro ⟨e, he⟩
      by_contra hne
      rw [if_neg hne] at he
      simp at he
    · intro h0
      exact ⟨_, by rw [if_pos h0]⟩
  refine ⟨herr, ?_, ?_⟩
  · rw [herr]; exact Matrix.det_vandermonde_eq_zero_iff
  · intro hne
    unfold lagrange_polynomial
    rw [hdet, if_neg hne]

/-- Witness for `C7_lagrange_singular_error`: the distinct abscissas `0, 1`
give a non-singular interpolation matrix and a successful return. -/
theorem C7_lagrange_singular_error_witness :
    lagrange_polynomial 2 ![(0 : ℚ), 1] = .ok (lagrangeCoeffs 2 ![(0 : ℚ), 1]) := by
  refine (C7_lagrange_singular_error 2 ![(0 : ℚ), 1]).2.2 ?_
  rw [Matrix.det_vandermonde_ne_zero_iff]
  intro a b hab
  fin_cases a <;> fin_cases b <;> first | rfl | (exfalso; norm_num at hab)

/-- The abscissa vector `[-1, 0, 1]` in branch-free form. -/
theorem vecIte :
    (![(-1:ℚ), 0, 1]) = fun i : Fin 3 =>
      if (i : ℕ) = 0 then -1 else if (i : ℕ) = 1 then 0 else 1 := by
  funext i
  fin_cases i <;> rfl

/-- The `size >= 3` branch of the coefficient table, unfolded. -/
theorem lagrangeCoeffs_three (xs : Fin 3 → ℚ) :
    lagrangeCoeffs 3 xs = fun a b =>
      rolledMinor (interpMatrix 3 xs) b a / detL 3 (interpMatrix 3 xs) := rfl

/-- The interpolation determinant of the abscissas `[-1, 0, 1]`. -/
theorem detL_c8 : detL 3 (interpMatrix 3 ![(-1:ℚ), 0, 1]) = 2 := by
  rw [vecIte]
  simp only [detL, interpMatrix, Fin.sum_univ_succ, Finset.sum_empty,
    Fin.succAbove, Matrix.submatrix_apply, Matrix.of_apply, Fin.lt_def,
    Fin.val_succ, Fin.val_add, Fin.coe_castSucc, Fin.val_zero, Fin.val_one]
  norm_num

/-- **C8.** `lagrange_polynomial([-1, 0, 1])` produces three polynomials whose
evaluations back at the abscissas `[-1, 0, 1]` form the 3×3 identity matrix
within `1e-8` (indeed exactly): polynomial `a` evaluates to `1` at abscissa
`a` and to `0` at the other two. -/
theorem C8_lagrange_identity :
    ∀ a c : Fin 3,
      |polyEval (lagrangeOut 3 ![(-1:ℚ), 0, 1] a) (![(-1:ℚ), 0, 1] c)
        - (if a = c then 1 else 0)| ≤ 1/100000000 := by
  have hok : lagrange_polynomial 3 ![(-1:ℚ), 0, 1]
      = .ok (lagrangeCoeffs 3 ![(-1:ℚ), 0, 1]) := by
    unfold lagrange_polynomial
    rw [if_neg (by rw [detL_c8]; norm_num)]
  have hout : lagrangeOut 3 ![(-1:ℚ), 0, 1] = lagrangeCoeffs 3 ![(-1:ℚ), 0, 1] := by
    unfold lagrangeOut
    rw [hok]
  have htable : ∀ a b : Fin 3, lagrangeCoeffs 3 ![(-1:ℚ), 0, 1] a b
      = (![![0, -1/2, 1/2], ![1, 0, -1], ![0, 1/2, 1/2]]) a b := by
    intro a b
    rw [lagrangeCoeffs_three]
    fin_cases a <;> fin_cases b <;>
      (rw [vecIte]
       simp only [rolledMinor, detL, interpMatrix, Fin.sum_univ_succ, Finset.sum_empty,
         Fin.succAbove, Matrix.submatrix_apply, Matrix.of_apply, Fin.lt_def, Fin.val_mk,
         Fin.val_succ, Fin.val_add, Fin.coe_castSucc, Fin.val_zero, Fin.val_one]
       norm_num)
  intro a c
  rw [hout]
  have hev : polyEval (lagrangeCoeffs 3 ![(-1:ℚ), 0, 1] a) (![(-1:ℚ), 0, 1] c)
      = polyEval ((![![0, -1/2, 1/2], ![1, 0, -1], ![0, 1/2, 1/2]]) a) (![(-1:ℚ), 0, 1] c) := by
    unfold polyEval
    exact Finset.sum_congr rfl fun b _ => by rw [htable a b]
  rw [hev, abs_le]
  fin_cases a <;> fin_cases c <;>
    (constructor <;>
      (simp +decide only [polyEval, Fin.sum_univ_succ, Finset.sum_empty, Fin.val_mk,
         Fin.val_zero, Fin.val_one]
       norm_num))

/-- **C10.** On a single abscissa `[a]`, `lagrange_polynomial` returns the
constant polynomial with value `a` everywhere (the degree-0 basis element
scaled by `abscissas.item()`): its evaluation at any point, in particular at
`a` itself, is `a`, and that evaluation equals the interpolation value `1`
exactly when `a = 1`. -/
theorem C10_lagrange_single_point (a x : ℚ) :
    lagrange_polynomial 1 ![a] = .ok (fun _ _ => a) ∧
      polyEval (lagrangeOut 1 ![a] 0) x = a ∧
      (polyEval (lagrangeOut 1 ![a] 0) a = 1 ↔ a = 1) := by
  have hone : detL 1 (interpMatrix 1 ![a]) = 1 := by
    simp [detL, interpMatrix, Fin.sum_univ_succ]
  have hcoeffs : lagrangeCoeffs 1 ![a] = fun _ _ => a := by
    funext i j
    show (![a]) 0 = a
    simp
  have hok : lagrange_polynomial 1 ![a] = .ok (fun _ _ => a) := by
    unfold lagrange_polynomial
    rw [if_neg (by rw [hone]; norm_num), hcoeffs]
  have hout : lagrangeOut 1 ![a] = fun _ _ => a := by
    unfold lagrangeOut
    rw [hok]
  have heval : polyEval (lagrangeOut 1 ![a] 0) x = a := by
    rw [hout]
    simp [polyEval]
  have heval' : polyEval (lagrangeOut 1 ![a] 0) a = a := by
    rw [hout]
    simp [polyEval]
  refine ⟨hok, heval, ?_⟩
  rw [heval']

/-- **C9.** Both transform combinators short-circuit through the cache: when
the wrapped distribution's cache entry is a concrete number `v`, the
forward-cache and inverse-cache hooks return `v` mapped through the plain
numeric transform (`arcsin`/`sin` for `Arcsin`, `arctan`/`tan` for `Arctan`)
without further distribution machinery; when the entry is still symbolic, the
combinator returns itself unchanged. -/
theorem C9_cache_shortcircuit (inner : DistE) (cache : DistE → Option ℝ) :
    (∀ v, cache inner = some v →
      Arcsin_fwd_cache inner cache = .num (Real.arcsin v) ∧
        Arcsin_inv_cache inner cache = .num (Real.sin v) ∧
        Arctan_fwd_cache inner cache = .num (Real.arctan v) ∧
        Arctan_inv_cache inner cache = .num (Real.tan v)) ∧
    (cache inner = none →
      Arcsin_fwd_cache inner cache = .dist (.arcsinT inner) ∧
        Arcsin_inv_cache inner cache = .dist (.arcsinT inner) ∧
        Arctan_fwd_cache inner cache = .dist (.arctanT inner) ∧
        Arctan_inv_cache inner cache = .dist (.arctanT inner)) := by
  constructor
  · intro v hv
    refine ⟨?_, ?_, ?_, ?_⟩ <;>
      simp [Arcsin_fwd_cache, Arcsin_inv_cache, Arctan_fwd_cache, Arctan_inv_cache,
        get_forward_cache, hv]
  · intro hv
    refine ⟨?_, ?_, ?_, ?_⟩ <;>
      simp [Arcsin_fwd_cache, Arcsin_inv_cache, Arctan_fwd_cache, Arctan_inv_cache,
        get_forward_cache, hv]

/-- Witness for `C9_cache_shortcircuit`: a cache holding `0` short-circuits to
`arcsin 0`, and an empty cache returns the combinator itself. -/
theorem C9_cache_shortcircuit_witness :
    Arcsin_fwd_cache (.leaf 0) cacheZero = .num (Real.arcsin 0) ∧
      Arctan_inv_cache (.leaf 0) cacheNone = .dist (.arctanT (.leaf 0)) :=
  ⟨((C9_cache_shortcircuit (.leaf 0) cacheZero).1 0 rfl).1,
   ((C9_cache_shortcircuit (.leaf 0) cacheNone).2 rfl).2.2.2⟩

/-- **C5.** With the recurrence algorithm left unspecified, `quad_gaussian`
always succeeds: it uses the analytical path when the distribution implements
the closed-form three-term recurrence and the discretized Stieltjes path
otherwise; the internal unsupported-analytical signal (the
`NotImplementedError` an explicit `"analytical"` request would propagate) is
never surfaced, and the result coincides with the corresponding explicit
algorithm choice. -/
theorem C5_analytical_fallback (c2q : List (ℝ × ℝ) → List ℝ × List ℝ)
    (order : ℕ) (dist : DistR) :
    (∃ r, quad_gaussian_model c2q order dist .unspecified = .ok r) ∧
      (∀ t, dist.analyticTTR = some t →
        quad_gaussian_model c2q order dist .unspecified
          = quad_gaussian_model c2q order dist .analytical) ∧
      (dist.analyticTTR = none →
        quad_gaussian_model c2q order dist .unspecified
            = quad_gaussian_model c2q order dist .stieltjes ∧
          quad_gaussian_model c2q order dist .analytical = .error .notImplemented) := by
  refine ⟨?_, ?_, ?_⟩
  · rcases h : dist.analyticTTR with _ | t
    · exact ⟨c2q ((List.range (order + 1)).map dist.stieltjesTTR),
        by simp [quad_gaussian_model, construct_recurrence_coefficients, h, Except.map]⟩
    · exact ⟨c2q ((List.range (order + 1)).map t),
        by simp [quad_gaussian_model, construct_recurrence_coefficients, h, Except.map]⟩
  · intro t ht
    simp [quad_gaussian_model, construct_recurrence_coefficients, ht]
  · intro ht
    constructor <;>
      simp [quad_gaussian_model, construct_recurrence_coefficients, ht, Except.map]

/-- Witness for `C5_analytical_fallback` on a distribution with an analytical
recurrence and one without. -/
theorem C5_analytical_fallback_witness :
    (∃ r, quad_gaussian_model c2qW 5 distA .unspecified = .ok r) ∧
      quad_gaussian_model c2qW 5 distA .unspecified
        = quad_gaussian_model c2qW 5 distA .analytical ∧
      quad_gaussian_model c2qW 5 distT .unspecified
        = quad_gaussian_model c2qW 5 distT .stieltjes ∧
      quad_gaussian_model c2qW 5 distT .analytical = .error .notImplemented :=
  ⟨(C5_analytical_fallback c2qW 5 distA).1,
   (C5_analytical_fallback c2qW 5 distA).2.1 _ rfl,
   ((C5_analytical_fallback c2qW 5 distT).2.2 rfl).1,
   ((C5_analytical_fallback c2qW 5 distT).2.2 rfl).2⟩

/-- Cartesian-product length: a flat map by constant-length blocks. -/
theorem flatMap_const_length {α β : Type} (l : List α) (f : α → List β) (k : ℕ)
    (h : ∀ x, (f x).length = k) : (l.flatMap f).length = l.length * k := by
  induction l with
  | nil => simp
  | cons a l ih =>
    simp only [List.flatMap_cons, List.length_append, ih, List.length_cons, h]
    ring

/-- Scalar multiple distributes over a list sum. -/
theorem map_mul_sum (g : List ℝ) (a : ℝ) : (g.map fun w => w * a).sum = g.sum * a := by
  induction g with
  | nil => simp
  | cons b g ihg =>
    simp only [List.map_cons, List.sum_cons, ihg]
    ring

/-- Product-of-sums identity for the tensor weights. -/
theorem flatMap_mul_sum (l g : List ℝ) :
    (l.flatMap fun v => g.map fun w => w * v).sum = g.sum * l.sum := by
  induction l with
  | nil => simp
  | cons a l ih =>
    simp only [List.flatMap_cons, List.sum_append, ih, List.sum_cons, map_mul_sum]
    ring

/-- **C6.** For rules produced by the spectral conversion of spec §4.4, the
weights sum exactly to `beta 0`, hence to `1` for a probability density; and
the tensor-product combination of per-dimension rules keeps the weight count
equal to the abscissa count and keeps the weight sum at `1` (well within the
`1e-8` tolerance). -/
theorem C6_weight_invariants :
    (∀ (alpha beta : ℕ → ℝ) (n : ℕ) (xs ws : Fin (n + 1) → ℝ),
      isSpectralQuad alpha beta n xs ws → beta 0 = 1 → ∑ i, ws i = 1) ∧
      (∀ rs : List (List ℝ × List ℝ), (∀ r ∈ rs, r.1.length = r.2.length) →
        (combine_quadrature rs).1.length = (combine_quadrature rs).2.length) ∧
      (∀ rs : List (List ℝ × List ℝ), (∀ r ∈ rs, r.2.sum = 1) →
        |(combine_quadrature rs).2.sum - 1| ≤ 1/100000000) := by
  refine ⟨?_, ?_, ?_⟩
  · intro alpha beta n xs ws hq hb
    obtain ⟨V, hV, _, hw⟩ := hq
    have hVV : V * V.transpose = 1 := Matrix.mul_eq_one_comm.mp hV
    have hrow : ∑ i, (V 0 i) ^ 2 = 1 := by
      have := congrFun (congrFun hVV 0) 0
      rw [Matrix.mul_apply] at this
      simpa [Matrix.transpose_apply, pow_two, Matrix.one_apply] using this
    calc ∑ i, ws i = ∑ i, beta 0 * (V 0 i) ^ 2 := Finset.sum_congr rfl fun i _ => hw i
      _ = beta 0 * ∑ i, (V 0 i) ^ 2 := by rw [Finset.mul_sum]
      _ = 1 := by rw [hrow, hb, mul_one]
  · intro rs h
    induction rs with
    | nil => simp [combine_quadrature]
    | cons r rs ih =>
      have hr := h r (by simp)
      have ih' := ih fun x hx => h x (by simp [hx])
      simp only [combine_quadrature]
      rw [flatMap_const_length _ _ r.1.length fun p => by simp,
        flatMap_const_length _ _ r.2.length fun v => by simp, ih', hr]
  · intro rs h
    have hsum : (combine_quadrature rs).2.sum = 1 := by
      induction rs with
      | nil => simp [combine_quadrature]
      | cons r rs ih =>
        have hr := h r (by simp)
        have ih' := ih fun x hx => h x (by simp [hx])
        simp only [combine_quadrature]
        rw [flatMap_mul_sum, ih', hr, mul_one]
    rw [hsum]
    norm_num

/-- Witness for `C6_weight_invariants`: the one-point rule of a constant
distribution (`alpha = 0`, `beta = 1`, eigenvector matrix `1`), and the
tensor combination of the single rule `([0], [1])`. -/
theorem C6_weight_invariants_witness :
    (∑ i : Fin 1, (fun _ : Fin 1 => (1:ℝ)) i = 1) ∧
      (combine_quadrature [([0], [1])]).1.length
        = (combine_quadrature [([0], [1])]).2.length ∧
      |(combine_quadrature [([0], [1])]).2.sum - 1| ≤ 1/100000000 := by
  refine ⟨?_, ?_, ?_⟩
  · refine C6_weight_invariants.1 (fun _ => 0) (fun _ => 1) 0
      (fun _ => 0) (fun _ => 1) ⟨1, ?_, ?_, ?_⟩ rfl
    · simp
    · rw [Matrix.mul_one, Matrix.one_mul]
      refine Matrix.ext fun i j => ?_
      have hij : i = j := Fin.ext (by omega)
      subst hij
      simp [jacobiMatrix, Matrix.diagonal_apply_eq]
    · intro i
      have hi : i = 0 := Fin.ext (by omega)
      subst hi
      simp [Matrix.one_apply]
  · refine C6_weight_invariants.2.1 [([0], [1])] ?_
    intro r hr
    simp only [List.mem_singleton] at hr
    simp [hr]
  · refine C6_weight_invariants.2.2 [([0], [1])] ?_
    intro r hr
    simp only [List.mem_singleton] at hr
    simp [hr]

/-- `heR 6` in closed form. -/
theorem heR6_explicit (x : ℝ) : heR 6 x = x^6 - 15*x^4 + 45*x^2 - 15 := by
  simp only [heR]
  push_cast
  ring

/-- The Christoffel normalization reduced modulo `heR 6`. -/
theorem christoffelDen_identity (x : ℝ) :
    christoffelDen x = (x^4 + 45) * heR 6 x + (540*x^4 - 1800*x^2 + 900) := by
  simp only [christoffelDen, heR]
  push_cast
  ring

/-- At a root of `heR 6` the Christoffel normalization is the explicit
quartic `540 x^4 - 1800 x^2 + 900`. -/
theorem christoffelDen_root {x : ℝ} (h : heR 6 x = 0) :
    christoffelDen x = 540*x^4 - 1800*x^2 + 900 := by
  rw [christoffelDen_identity, h]
  ring

/-- The Christoffel normalization as a sum of squares. -/
theorem christoffelDen_explicit (x : ℝ) :
    christoffelDen x = 120 + 120*x^2 + 60*(x^2-1)^2 + 20*(x^3-3*x)^2
      + 5*(x^4-6*x^2+3)^2 + (x^5-10*x^3+15*x)^2 := by
  simp only [christoffelDen, heR]
  push_cast
  ring

/-- The Christoffel normalization is strictly positive. -/
theorem christoffelDen_pos (x : ℝ) : 0 < christoffelDen x := by
  rw [christoffelDen_explicit]
  positivity

theorem heR6_continuous : Continuous fun x => heR 6 x := by
  have h : (fun x => heR 6 x) = fun x : ℝ => x^6 - 15*x^4 + 45*x^2 - 15 :=
    funext heR6_explicit
  rw [h]
  fun_prop

/-- Intermediate value theorem for an increasing sign change of `heR 6`. -/
theorem root_between (a b : ℝ) (hab : a ≤ b) (ha : heR 6 a ≤ 0) (hb : 0 ≤ heR 6 b) :
    ∃ r, a ≤ r ∧ r ≤ b ∧ heR 6 r = 0 := by
  obtain ⟨r, hr, hr0⟩ := intermediate_value_Icc hab heR6_continuous.continuousOn ⟨ha, hb⟩
  exact ⟨r, hr.1, hr.2, hr0⟩

/-- Intermediate value theorem for a decreasing sign change of `heR 6`. -/
theorem root_between' (a b : ℝ) (hab : a ≤ b) (ha : 0 ≤ heR 6 a) (hb : heR 6 b ≤ 0) :
    ∃ r, a ≤ r ∧ r ≤ b ∧ heR 6 r = 0 := by
  obtain ⟨r, hr, hr0⟩ := intermediate_value_Icc' hab heR6_continuous.continuousOn ⟨hb, ha⟩
  exact ⟨r, hr.1, hr.2, hr0⟩

theorem heP_eval (x : ℝ) : heP.eval x = x^6 - 15*x^4 + 45*x^2 - 15 := by
  simp [heP]

theorem heP_natDegree : heP.natDegree = 6 := by
  unfold heP
  compute_degree!

theorem heP_ne_zero : heP ≠ 0 := by
  intro h
  have h6 := heP_natDegree
  rw [h] at h6
  simp at h6

/-- Any root of `heR 6` belongs to the root finset of `heP`. -/
theorem mem_hermite_roots (x : ℝ) (hx : heR 6 x = 0) : x ∈ heP.roots.toFinset := by
  rw [Multiset.mem_toFinset, Polynomial.mem_roots']
  refine ⟨heP_ne_zero, ?_⟩
  rw [Polynomial.IsRoot, heP_eval, ← heR6_explicit]
  exact hx

/-- Six roots of `heR 6`, one per bracketing interval, in ascending order. -/
theorem hermite_roots_exist :
    ∃ r : Fin 6 → ℝ, StrictMono r ∧ (∀ i, heR 6 (r i) = 0) ∧
      ∀ i, intA i ≤ r i ∧ r i ≤ intB i := by
  obtain ⟨r0, h0a, h0b, h0r⟩ := root_between' (-3324259/1000000) (-3324256/1000000)
    (by norm_num) (by rw [heR6_explicit]; norm_num) (by rw [heR6_explicit]; norm_num)
  obtain ⟨r1, h1a, h1b, h1r⟩ := root_between (-1889177/1000000) (-1889175/1000000)
    (by norm_num) (by rw [heR6_explicit]; norm_num) (by rw [heR6_explicit]; norm_num)
  obtain ⟨r2, h2a, h2b, h2r⟩ := root_between' (-616708/1000000) (-616705/1000000)
    (by norm_num) (by rw [heR6_explicit]; norm_num) (by rw [heR6_explicit]; norm_num)
  obtain ⟨r3, h3a, h3b, h3r⟩ := root_between (616705/1000000) (616708/1000000)
    (by norm_num) (by rw [heR6_explicit]; norm_num) (by rw [heR6_explicit]; norm_num)
  obtain ⟨r4, h4a, h4b, h4r⟩ := root_between' (1889175/1000000) (1889177/1000000)
    (by norm_num) (by rw [heR6_explicit]; norm_num) (by rw [heR6_explicit]; norm_num)
  obtain ⟨r5, h5a, h5b, h5r⟩ := root_between (3324256/1000000) (3324259/1000000)
    (by norm_num) (by rw [heR6_explicit]; norm_num) (by rw [heR6_explicit]; norm_num)
  refine ⟨fun i =>
    if (i : ℕ) = 0 then r0
    else if (i : ℕ) = 1 then r1
    else if (i : ℕ) = 2 then r2
    else if (i : ℕ) = 3 then r3
    else if (i : ℕ) = 4 then r4
    else r5, ?_, ?_, ?_⟩
  · refine Fin.strictMono_iff_lt_succ.mpr ?_
    intro i
    fin_cases i <;>
      simp +decide only [Fin.coe_castSucc, Fin.val_succ, Fin.val_mk, if_true, if_false] <;>
      linarith [show (-3324256/1000000 : ℝ) < -1889177/1000000 by norm_num,
        show (-1889175/1000000 : ℝ) < -616708/1000000 by norm_num,
        show (-616705/1000000 : ℝ) < 616705/1000000 by norm_num,
        show (616708/1000000 : ℝ) < 1889175/1000000 by norm_num,
        show (1889177/1000000 : ℝ) < 3324256/1000000 by norm_num]
  · intro i
    fin_cases i <;> simp +decide only [Fin.val_mk, if_true, if_false] <;> assumption
  · intro i
    fin_cases i <;>
      simp +decide only [intA, intB, Fin.val_mk, if_true, if_false] <;>
      exact ⟨by assumption, by assumption⟩

/-- Any ascending six-tuple of roots of `heR 6` lies in the six bracketing
intervals componentwise: `heP` has at most six distinct roots, the intervals
each contain one, so by counting a sorted enumeration of roots coincides with
the sorted enumeration of the bracketed ones. -/
theorem hermite_sorted_roots_located (xs : Fin 6 → ℝ) (hmono : StrictMono xs)
    (hroot : ∀ i, heR 6 (xs i) = 0) :
    ∀ i, intA i ≤ xs i ∧ xs i ≤ intB i := by
  obtain ⟨r, hrmono, hrroot, hrmem⟩ := hermite_roots_exist
  have hTcard : heP.roots.toFinset.card ≤ 6 := by
    refine le_trans (Multiset.toFinset_card_le _) ?_
    have h := heP.card_roots'
    rw [heP_natDegree] at h
    exact h
  have hrT : ∀ i, r i ∈ heP.roots.toFinset := fun i => mem_hermite_roots _ (hrroot i)
  have hxT : ∀ i, xs i ∈ heP.roots.toFinset := fun i => mem_hermite_roots _ (hroot i)
  have himg : (Finset.image r Finset.univ).card = 6 := by
    rw [Finset.card_image_of_injective _ hrmono.injective, Finset.card_univ,
      Fintype.card_fin]
  have hsub : Finset.image r Finset.univ ⊆ heP.roots.toFinset := by
    intro y hy
    obtain ⟨i, _, rfl⟩ := Finset.mem_image.mp hy
    exact hrT i
  have hT6 : heP.roots.toFinset.card = 6 :=
    le_antisymm hTcard (himg ▸ Finset.card_le_card hsub)
  have h1 := Finset.orderEmbOfFin_unique hT6 hxT hmono
  have h2 := Finset.orderEmbOfFin_unique hT6 hrT hrmono
  intro i
  have hxr : xs i = r i := by
    have e1 := congrFun h1 i
    have e2 := congrFun h2 i
    rw [e1, ← e2]
  rw [hxr]
  exact hrmem i

/-- Square bounds on a positive interval. -/
theorem sq_bounds_pos (x a b : ℝ) (h1 : a ≤ x) (h2 : x ≤ b) (h0 : 0 ≤ a) :
    a^2 ≤ x^2 ∧ x^2 ≤ b^2 :=
  ⟨by nlinarith, by nlinarith⟩

/-- Square bounds on a negative interval. -/
theorem sq_bounds_neg (x a b : ℝ) (h1 : a ≤ x) (h2 : x ≤ b) (h0 : b ≤ 0) :
    b^2 ≤ x^2 ∧ x^2 ≤ a^2 :=
  ⟨by nlinarith, by nlinarith⟩

/-- Interval arithmetic for the Christoffel weight `w = 120 / (540 x^4 -
1800 x^2 + 900)`: rational bounds on `x^2` squeeze `w` within `1e-3` of the
target value `t`. -/
theorem christoffel_weight_bound (x w ulo uhi t : ℝ)
    (hx : w * (540*x^4 - 1800*x^2 + 900) = 120)
    (hu1 : ulo ≤ x^2) (hu2 : x^2 ≤ uhi) (h0 : 0 ≤ ulo)
    (hlo : 120 ≤ (t + 1/1000) * (540*ulo^2 - 1800*uhi + 900))
    (hhi : (t - 1/1000) * (540*uhi^2 - 1800*ulo + 900) ≤ 120)
    (hpos : 0 < 540*ulo^2 - 1800*uhi + 900)
    (ht : 1/1000 ≤ t) :
    |w - t| ≤ 1/1000 := by
  have hD1 : 540*ulo^2 - 1800*uhi + 900 ≤ 540*x^4 - 1800*x^2 + 900 := by
    nlinarith [mul_nonneg (sub_nonneg.mpr hu1) (by nlinarith : (0:ℝ) ≤ x^2 + ulo)]
  have hD2 : 540*x^4 - 1800*x^2 + 900 ≤ 540*uhi^2 - 1800*ulo + 900 := by
    nlinarith [mul_nonneg (sub_nonneg.mpr hu2) (by nlinarith : (0:ℝ) ≤ uhi + x^2)]
  have hDpos : 0 < 540*x^4 - 1800*x^2 + 900 := lt_of_lt_of_le hpos hD1
  have hwpos : 0 < w := by nlinarith
  rw [abs_le]
  constructor
  · nlinarith [mul_le_mul_of_nonneg_left hD2 (by linarith : (0:ℝ) ≤ t - 1/1000)]
  · nlinarith [mul_le_mul_of_nonneg_left hD1 (by linarith : (0:ℝ) ≤ t + 1/1000)]

/-- **C3.** The order-5 Gaussian quadrature rule for the standard normal
distribution exists, and any rule satisfying the spectral characterization has
abscissas `[-3.3243, -1.8892, -0.6167, 0.6167, 1.8892, 3.3243]` and weights
`[0.0026, 0.0886, 0.4088, 0.4088, 0.0886, 0.0026]`, each within `1e-3`. -/
theorem C3_gauss_hermite_order5 :
    (∃ xs ws : Fin 6 → ℝ, isGaussHermite5 xs ws) ∧
      ∀ xs ws : Fin 6 → ℝ, isGaussHermite5 xs ws →
        ∀ i, |xs i - targetX i| ≤ 1/1000 ∧ |ws i - targetW i| ≤ 1/1000 := by
  constructor
  · obtain ⟨r, hrmono, hrroot, hrmem⟩ := hermite_roots_exist
    exact ⟨r, fun i => 120 / christoffelDen (r i), hrmono, hrroot,
      fun i => div_mul_cancel₀ 120 (ne_of_gt (christoffelDen_pos (r i)))⟩
  · rintro xs ws ⟨hmono, hroot, hw⟩ i
    have hloc := hermite_sorted_roots_located xs hmono hroot i
    have hwi := hw i
    rw [christoffelDen_root (hroot i)] at hwi
    fin_cases i <;>
      simp +decide only [intA, intB, targetX, targetW, Fin.val_mk, if_true, if_false] at hloc ⊢
    · refine ⟨by rw [abs_le]; exact ⟨by linarith [hloc.1], by linarith [hloc.2]⟩, ?_⟩
      exact christoffel_weight_bound _ _ ((-3324256/1000000:ℝ)^2) ((-3324259/1000000:ℝ)^2)
        _ hwi (sq_bounds_neg _ _ _ hloc.1 hloc.2 (by norm_num)).1
        (sq_bounds_neg _ _ _ hloc.1 hloc.2 (by norm_num)).2
        (by norm_num) (by norm_num) (by norm_num) (by norm_num) (by norm_num)
    · refine ⟨by rw [abs_le]; exact ⟨by linarith [hloc.1], by linarith [hloc.2]⟩, ?_⟩
      exact christoffel_weight_bound _ _ ((-1889175/1000000:ℝ)^2) ((-1889177/1000000:ℝ)^2)
        _ hwi (sq_bounds_neg _ _ _ hloc.1 hloc.2 (by norm_num)).1
        (sq_bounds_neg _ _ _ hloc.1 hloc.2 (by norm_num)).2
        (by norm_num) (by norm_num) (by norm_num) (by norm_num) (by norm_num)
    · refine ⟨by rw [abs_le]; exact ⟨by linarith [hloc.1], by linarith [hloc.2]⟩, ?_⟩
      exact christoffel_weight_bound _ _ ((-616705/1000000:ℝ)^2) ((-616708/1000000:ℝ)^2)
        _ hwi (sq_bounds_neg _ _ _ hloc.1 hloc.2 (by norm_num)).1
        (sq_bounds_neg _ _ _ hloc.1 hloc.2 (by norm_num)).2
        (by norm_num) (by norm_num) (by norm_num) (by norm_num) (by norm_num)
    · refine ⟨by rw [abs_le]; exact ⟨by linarith [hloc.1], by linarith [hloc.2]⟩, ?_⟩
      exact christoffel_weight_bound _ _ ((616705/1000000:ℝ)^2) ((616708/1000000:ℝ)^2)
        _ hwi (sq_bounds_pos _ _ _ hloc.1 hloc.2 (by norm_num)).1
        (sq_bounds_pos _ _ _ hloc.1 hloc.2 (by norm_num)).2
        (by norm_num) (by norm_num) (by norm_num) (by norm_num) (by norm_num)
    · refine ⟨by rw [abs_le]; exact ⟨by linarith [hloc.1], by linarith [hloc.2]⟩, ?_⟩
      exact christoffel_weight_bound _ _ ((1889175/1000000:ℝ)^2) ((1889177/1000000:ℝ)^2)
        _ hwi (sq_bounds_pos _ _ _ hloc.1 hloc.2 (by norm_num)).1
        (sq_bounds_pos _ _ _ hloc.1 hloc.2 (by norm_num)).2
        (by norm_num) (by norm_num) (by norm_num) (by norm_num) (by norm_num)
    · refine ⟨by rw [abs_le]; exact ⟨by linarith [hloc.1], by linarith [hloc.2]⟩, ?_⟩
      exact christoffel_weight_bound _ _ ((3324256/1000000:ℝ)^2) ((3324259/1000000:ℝ)^2)
        _ hwi (sq_bounds_pos _ _ _ hloc.1 hloc.2 (by norm_num)).1
        (sq_bounds_pos _ _ _ hloc.1 hloc.2 (by norm_num)).2
        (by norm_num) (by norm_num) (by norm_num) (by norm_num) (by norm_num)

/-- Witness for `C3_gauss_hermite_order5`: the rule obtained from the
existence half satisfies the stated numeric bounds. -/
theorem C3_gauss_hermite_order5_witness :
    ∃ xs ws : Fin 6 → ℝ, isGaussHermite5 xs ws ∧
      ∀ i, |xs i - targetX i| ≤ 1/1000 ∧ |ws i - targetW i| ≤ 1/1000 := by
  obtain ⟨xs, ws, hrule⟩ := C3_gauss_hermite_order5.1
  exact ⟨xs, ws, hrule, C3_gauss_hermite_order5.2 xs ws hrule⟩

end Chaospy
